import Mathlib

/-!
Verification of the folder-comparison engine (`check-folders`).

The definitions below are a shallow embedding of the Python sources,
chiefly `old_versions/gama_3.py` (enumeration, hashing, reconciliation,
rename detection, report assembly) and `old_versions/beta_version_3.py`
(folder-set reconciliation).  Pure functions become Lean functions; the
filesystem is an explicit tree value; `get_file_hash`'s fallibility
(its `except` clause returns `None`) becomes `Option`; Python `set`
iteration order, which is incidental and hash-seed dependent in CPython,
becomes an explicit list parameter recording the enumeration order.
-/

/-- Code-point comparison of character lists, mirroring Python's
lexicographic string ordering used by `sorted(...)`. -/
def charListLt : List Char → List Char → Bool
  | [], [] => false
  | [], _ :: _ => true
  | _ :: _, [] => false
  | a :: as, b :: bs =>
    if a.toNat < b.toNat then true
    else if b.toNat < a.toNat then false
    else charListLt as bs

/-- Python string comparison `a < b` (code-point lexicographic). -/
def strLt (a b : String) : Bool := charListLt a.data b.data

/-- Insertion step of the sort modelling Python's `sorted(...)`. -/
def insertStr (x : String) : List String → List String
  | [] => [x]
  | y :: ys => if strLt x y then x :: y :: ys else y :: insertStr x ys

/-- Sorting modelling Python's `sorted(...)` on path strings. -/
def sortStr : List String → List String
  | [] => []
  | x :: xs => insertStr x (sortStr xs)

/-- `sorted(s1 - s2)` of `compare_folders` (gama_3.py line 83): the
one-sided buckets are plain set difference, then sorted. -/
def sortedDiff (l1 l2 : List String) : List String :=
  sortStr (l1.filter (fun p => !l2.elem p))

/-- `sorted(s1 & s2)` of `compare_folders` (gama_3.py line 85): the
common bucket is plain set intersection, then sorted. -/
def sortedInter (l1 l2 : List String) : List String :=
  sortStr (l1.filter (fun p => l2.elem p))

/-- Accumulators of the common-file comparison loop of `compare_folders`
(gama_3.py lines 87-106): `identical_files`, `different_files`,
`failed_comparisons` (the spec's `Unreadable` entries) and
`total_checked`. -/
structure CommonResult where
  identical_files : List String
  different_files : List String
  failed_comparisons : List String
  total_checked : Nat
deriving DecidableEq

/-- The common-file comparison loop of `compare_folders` (gama_3.py
lines 93-106).  `hash1`/`hash2` are the per-side hash oracles
(`get_file_hash` applied to the joined path); `none` models a hash
failure.  Each file lands in exactly one accumulator and
`total_checked` is incremented once per file; a hash failure is
recorded in `failed_comparisons` and the loop continues (the function
is total: no failure aborts the run). -/
def classify_common (hash1 hash2 : String → Option String) : List String → CommonResult
  | [] => ⟨[], [], [], 0⟩
  | f :: rest =>
    let r := classify_common hash1 hash2 rest
    match hash1 f, hash2 f with
    | none, _ => ⟨r.identical_files, r.different_files, f :: r.failed_comparisons, r.total_checked + 1⟩
    | some _, none => ⟨r.identical_files, r.different_files, f :: r.failed_comparisons, r.total_checked + 1⟩
    | some d1, some d2 =>
      if d1 ≠ d2 then ⟨r.identical_files, f :: r.different_files, r.failed_comparisons, r.total_checked + 1⟩
      else ⟨f :: r.identical_files, r.different_files, r.failed_comparisons, r.total_checked + 1⟩

/-- `hash_to_files1.setdefault(hash_val, []).append(file)` of
`detect_changed_files` (gama_3.py line 58): append `f` to the candidate
list of digest `d`, creating the entry at the end if absent.  The
multi-map is an association list, mirroring the insertion-ordered
Python dict. -/
def addCandidate (m : List (String × List String)) (d f : String) : List (String × List String) :=
  match m with
  | [] => [(d, [f])]
  | (d1, cs) :: rest =>
    if d1 = d then (d1, cs ++ [f]) :: rest else (d1, cs) :: addCandidate rest d f

/-- The candidate list stored under digest `d` (`[]` if the key is
absent, i.e. `hash_val in hash_to_files1` is false). -/
def lookupCand : List (String × List String) → String → List String
  | [], _ => []
  | (d1, cs) :: rest, d => if d1 = d then cs else lookupCand rest d

/-- `hash_to_files1[hash_val].pop(0)` plus the `del` cleanup of
`detect_changed_files` (gama_3.py lines 66-72): pop the first candidate
of digest `d`, deleting the key when its list becomes empty; `none`
when the key is absent. -/
def popCandidate : List (String × List String) → String → Option (String × List (String × List String))
  | [], _ => none
  | (d1, cs) :: rest, d =>
    if d1 = d then
      match cs with
      | [] => none
      | [a] => some (a, rest)
      | a :: c2 :: cs1 => some (a, (d1, c2 :: cs1) :: rest)
    else
      match popCandidate rest d with
      | some (a, rest1) => some (a, (d1, cs) :: rest1)
      | none => none

/-- The map-building loop of `detect_changed_files` (gama_3.py lines
53-58): fold over the A-side files in their enumeration order, adding
each file whose hash succeeds under its digest; hash failures are
skipped (the file never becomes a rename candidate). -/
def buildHashMapAux (hash1 : String → Option String) : List String → List (String × List String) → List (String × List String)
  | [], m => m
  | f :: rest, m =>
    match hash1 f with
    | some d => buildHashMapAux hash1 rest (addCandidate m d f)
    | none => buildHashMapAux hash1 rest m

/-- `hash_to_files1` built from the A-side files in enumeration order. -/
def buildHashMap (hash1 : String → Option String) (files : List String) : List (String × List String) :=
  buildHashMapAux hash1 files []

/-- The B-side matching loop of `detect_changed_files` (gama_3.py lines
61-72).  For each B-side file in enumeration order: hash it; on success,
if its digest has a remaining A-side candidate, pop the first candidate,
append the pair to `changed`, and discard both paths from the unmatched
sets (`un1`, `un2`, modelled as lists with `List.erase`). -/
def detectLoop (hash2 : String → Option String) :
    List String → List (String × List String) → List (String × String) → List String → List String →
    List (String × String) × List String × List String
  | [], _, changed, un1, un2 => (changed, un1, un2)
  | b :: bs, m, changed, un1, un2 =>
    match hash2 b with
    | none => detectLoop hash2 bs m changed un1 un2
    | some d =>
      match popCandidate m d with
      | none => detectLoop hash2 bs m changed un1 un2
      | some (a, m1) => detectLoop hash2 bs m1 (changed ++ [(a, b)]) (un1.erase a) (un2.erase b)

/-- `detect_changed_files` (gama_3.py lines 40-74).  The Python function
converts its arguments to `set`s and iterates those
(`for file in list(unmatched_extra_files1)`), so the processing order is
the sets' incidental, hash-seed-dependent enumeration order, not the
sorted order of the arguments; `iter1` and `iter2` record those
enumeration orders explicitly (each is some permutation of the
corresponding one-sided set).  Returns
`(changed_files, unmatched_extra_files1, unmatched_extra_files2)`. -/
def detect_changed_files (hash1 hash2 : String → Option String) (iter1 iter2 : List String) :
    List (String × String) × List String × List String :=
  detectLoop hash2 iter2 (buildHashMap hash1 iter1) [] iter1 iter2

/-- A filesystem tree: a file carries its byte content (as a string)
and whether opening it for read succeeds; a directory carries named
entries. -/
inductive FSTree where
  | file (content : String) (readable : Bool)
  | dir (entries : List (String × FSTree))

mutual

/-- Relative paths of all files under a tree, as produced by the
`os.walk` loop of `get_all_files` (gama_3.py lines 9-16): files of
nested directories are prefixed with the directory name and `/`.
Walking a file path yields nothing, like `os.walk` on a non-directory. -/
def walkFiles : FSTree → List String
  | .file _ _ => []
  | .dir es => walkFilesList es

/-- File paths contributed by a directory's entry list. -/
def walkFilesList : List (String × FSTree) → List String
  | [] => []
  | (n, t) :: rest =>
    (match t with
     | .file _ _ => [n]
     | .dir _ => (walkFiles t).map (fun p => n ++ "/" ++ p)) ++ walkFilesList rest

end

mutual

/-- Relative paths of all directories under a tree, as recorded by the
`for dir_name in dirs` loop of `get_all_files_and_folders`
(beta_version_3.py lines 14-17). -/
def walkFolders : FSTree → List String
  | .file _ _ => []
  | .dir es => walkFoldersList es

/-- Directory paths contributed by a directory's entry list. -/
def walkFoldersList : List (String × FSTree) → List String
  | [] => []
  | (n, t) :: rest =>
    (match t with
     | .file _ _ => []
     | .dir _ => n :: (walkFolders t).map (fun p => n ++ "/" ++ p)) ++ walkFoldersList rest

end

/-- Look up a named entry in a directory's entry list. -/
def findEntry (c : String) : List (String × FSTree) → Option FSTree
  | [] => none
  | (n, t) :: rest => if n = c then some t else findEntry c rest

/-- Resolve a path, given as a component list, against a tree. -/
def lookupTree : FSTree → List String → Option FSTree
  | t, [] => some t
  | .dir es, c :: cs =>
    match findEntry c es with
    | some t => lookupTree t cs
    | none => none
  | .file _ _, _ :: _ => none

/-- Split a character list on a separator into path components. -/
def splitAux (sep : Char) : List Char → List Char → List String
  | [], acc => [String.mk acc.reverse]
  | c :: cs, acc =>
    if c = sep then String.mk acc.reverse :: splitAux sep cs []
    else splitAux sep cs (c :: acc)

/-- Split a slash-separated path string into its components. -/
def splitPath (s : String) : List String := splitAux '/' s.data []

/-- `os.path.join(folder, relative_path)` with the canonical separator. -/
def pathJoin (folder p : String) : String := folder ++ "/" ++ p

/-- `get_all_files` (gama_3.py lines 9-16): the set of file paths under
`folder`, relative to it.  `os.walk` ignores errors by default
(`onerror=None`), so a missing or unlistable root yields no triples and
the function returns the empty set; `set(file_paths)` is modelled by
`List.dedup`. -/
def get_all_files (fs : FSTree) (folder : String) : List String :=
  match lookupTree fs (splitPath folder) with
  | some t => (walkFiles t).dedup
  | none => []

/-- `get_all_files_and_folders` (beta_version_3.py lines 9-22): the file
set and the folder set under `folder`, relative to it; same silent
`os.walk` behaviour on a missing root. -/
def get_all_files_and_folders (fs : FSTree) (folder : String) : List String × List String :=
  match lookupTree fs (splitPath folder) with
  | some t => ((walkFiles t).dedup, (walkFolders t).dedup)
  | none => ([], [])

/-- `get_file_hash` (gama_3.py lines 19-29): SHA256 of the file's byte
stream, or `None` when the file cannot be opened or read (missing path,
directory, or unreadable file); the `except` clause catches every
failure, so the result is always defined.  `sha` abstracts the SHA256
digest as a function of the full content. -/
def get_file_hash (sha : String → String) (fs : FSTree) (filepath : String) : Option String :=
  match lookupTree fs (splitPath filepath) with
  | some (.file c true) => some (sha c)
  | _ => none

/-- The result data assembled by `compare_folders` (gama_3.py lines
108-149): the console summary and the arguments handed to
`save_to_excel`, with presentation side effects dropped. -/
structure Report where
  changed_files : List (String × String)
  only_in_folder1 : List String
  only_in_folder2 : List String
  different_files : List String
  identical_files : List String
  failed_comparisons : List String
  total_checked : Nat
deriving DecidableEq

/-- `compare_folders` (gama_3.py lines 77-149): enumerate both roots,
bucket the file sets by set difference and intersection, classify the
common files by hashing both sides, then run rename detection on the
one-sided buckets.  `setOrder` records the incidental enumeration order
of the Python sets built inside `detect_changed_files` (a permutation
of its input). -/
def compare_folders (sha : String → String) (fs : FSTree) (folder1 folder2 : String)
    (setOrder : List String → List String) : Report :=
  let files1 := get_all_files fs folder1
  let files2 := get_all_files fs folder2
  let only1 := sortedDiff files1 files2
  let only2 := sortedDiff files2 files1
  let common := sortedInter files1 files2
  let hashA := fun p => get_file_hash sha fs (pathJoin folder1 p)
  let hashB := fun p => get_file_hash sha fs (pathJoin folder2 p)
  let c := classify_common hashA hashB common
  let r := detect_changed_files hashA hashB (setOrder only1) (setOrder only2)
  ⟨r.1, r.2.1, r.2.2, c.different_files, c.identical_files, c.failed_comparisons, c.total_checked⟩

mutual

/-- Rewrite every file content in a tree, leaving names, structure and
readability untouched: used to state that folder classification never
inspects content. -/
def mapContents (g : String → String) : FSTree → FSTree
  | .file c r => .file (g c) r
  | .dir es => .dir (mapContentsList g es)

/-- `mapContents` on a directory's entry list. -/
def mapContentsList (g : String → String) : List (String × FSTree) → List (String × FSTree)
  | [] => []
  | (n, t) :: rest => (n, mapContents g t) :: mapContentsList g rest

end

/-- The only-folder buckets of `compare_folders` (beta_version_3.py
lines 49-52): plain set difference of the enumerated folder sets,
sorted. -/
def beta_only_folders (fs : FSTree) (folder1 folder2 : String) : List String × List String :=
  let g1 := get_all_files_and_folders fs folder1
  let g2 := get_all_files_and_folders fs folder2
  (sortedDiff g1.2 g2.2, sortedDiff g2.2 g1.2)

/-- The chunking of `get_file_hash`'s read loop (gama_3.py line 24):
split a byte stream into successive chunks of at most 4096 bytes, as
produced by `iter(lambda: f.read(4096), b"")`. -/
def readChunks (l : List Nat) : List (List Nat) :=
  match l with
  | [] => []
  | x :: xs => ((x :: xs).take 4096) :: readChunks ((x :: xs).drop 4096)
termination_by l.length
decreasing_by simp [List.length_drop]; omega

/-- `hashlib`'s accumulator semantics: `m.update(a); m.update(b)` is
equivalent to `m.update(a + b)`, so the accumulator state is the
concatenation of the bytes fed so far. -/
def hashlib_update (state chunk : List Nat) : List Nat := state ++ chunk

/-- The digest computed by `get_file_hash`'s loop: feed each chunk into
the running accumulator, then take the digest of the accumulated
stream; `sha` abstracts the SHA256 digest function. -/
def hash_file_chunked (sha : List Nat → String) (content : List Nat) : String :=
  sha ((readChunks content).foldl hashlib_update [])

/-- Modelled from the spec's words (ContentDigest): the digest computed
over the file's full byte stream in one pass, to be compared with the
chunked implementation. -/
def hash_full_stream (sha : List Nat → String) (content : List Nat) : String :=
  sha content

/-- Fixture: a filesystem whose only root is `b`, holding one readable
file `x.txt`; the root `a` does not exist. -/
def fsC4 : FSTree := .dir [("b", .dir [("x.txt", .file "x" true)])]

/-- Fixture: root `a` holds a single unreadable file `x`; root `b` is
an empty directory. -/
def fsC5 : FSTree := .dir [("a", .dir [("x", .file "secret" false)]), ("b", .dir [])]

/-! ### Membership lemmas for the sorted set operations -/

theorem mem_insertStr {a x : String} {l : List String} :
    a ∈ insertStr x l ↔ a = x ∨ a ∈ l := by
  induction l with
  | nil => simp [insertStr]
  | cons y ys ih =>
    by_cases h : strLt x y = true
    · simp [insertStr, h]
    · simp [insertStr, h, ih]
      tauto

theorem mem_sortStr {a : String} {l : List String} : a ∈ sortStr l ↔ a ∈ l := by
  induction l with
  | nil => simp [sortStr]
  | cons x xs ih => simp [sortStr, mem_insertStr, ih]

theorem mem_sortedDiff {a : String} {l1 l2 : List String} :
    a ∈ sortedDiff l1 l2 ↔ a ∈ l1 ∧ a ∉ l2 := by
  simp [sortedDiff, mem_sortStr, List.mem_filter, List.elem_iff]

theorem mem_sortedInter {a : String} {l1 l2 : List String} :
    a ∈ sortedInter l1 l2 ↔ a ∈ l1 ∧ a ∈ l2 := by
  simp [sortedInter, mem_sortStr, List.mem_filter, List.elem_iff]

/-! ### Lemmas about the common-file classification loop -/

theorem perm_cons_app_left {α : Type} (f : α) {xs ys zs l : List α}
    (h : (xs ++ ys ++ zs).Perm l) : ((f :: xs) ++ ys ++ zs).Perm (f :: l) :=
  h.cons f

theorem perm_cons_app_mid {α : Type} (f : α) {xs ys zs l : List α}
    (h : (xs ++ ys ++ zs).Perm l) : (xs ++ (f :: ys) ++ zs).Perm (f :: l) := by
  have e1 : xs ++ (f :: ys) ++ zs = xs ++ f :: (ys ++ zs) := by simp
  have e2 : xs ++ ys ++ zs = xs ++ (ys ++ zs) := by simp
  rw [e1]
  exact List.perm_middle.trans ((e2 ▸ h).cons f)

theorem perm_cons_app_right {α : Type} (f : α) {xs ys zs l : List α}
    (h : (xs ++ ys ++ zs).Perm l) : (xs ++ ys ++ f :: zs).Perm (f :: l) := by
  have e1 : xs ++ ys ++ f :: zs = (xs ++ ys) ++ f :: zs := by simp
  rw [e1]
  exact List.perm_middle.trans (h.cons f)

theorem classify_common_perm (hash1 hash2 : String → Option String) (l : List String) :
    ((classify_common hash1 hash2 l).identical_files ++
      (classify_common hash1 hash2 l).different_files ++
      (classify_common hash1 hash2 l).failed_comparisons).Perm l := by
  induction l with
  | nil => simp [classify_common]
  | cons f rest ih =>
    rcases hf1 : hash1 f with _ | d1
    · simp only [classify_common, hf1]
      exact perm_cons_app_right f ih
    · rcases hf2 : hash2 f with _ | d2
      · simp only [classify_common, hf1, hf2]
        exact perm_cons_app_right f ih
      · by_cases hd : d1 = d2
        · simp only [classify_common, hf1, hf2, hd, ne_eq, not_true_eq_false, if_false]
          exact perm_cons_app_left f ih
        · simp only [classify_common, hf1, hf2, ne_eq, hd, not_false_eq_true, if_true]
          exact perm_cons_app_mid f ih

theorem classify_common_total (hash1 hash2 : String → Option String) (l : List String) :
    (classify_common hash1 hash2 l).total_checked = l.length := by
  induction l with
  | nil => simp [classify_common]
  | cons f rest ih =>
    rcases hf1 : hash1 f with _ | d1
    · simp [classify_common, hf1, ih]
    · rcases hf2 : hash2 f with _ | d2
      · simp [classify_common, hf1, hf2, ih]
      · by_cases hd : d1 = d2 <;> simp [classify_common, hf1, hf2, hd, ih]

theorem mem_classify_failed {hash1 hash2 : String → Option String} {l : List String} {p : String} :
    p ∈ (classify_common hash1 hash2 l).failed_comparisons ↔
      p ∈ l ∧ (hash1 p = none ∨ hash2 p = none) := by
  induction l with
  | nil => simp [classify_common]
  | cons f rest ih =>
    rcases hf1 : hash1 f with _ | d1
    · simp only [classify_common, hf1, List.mem_cons]
      rw [ih]
      constructor
      · rintro (h | ⟨h, hh⟩)
        · exact ⟨Or.inl h, Or.inl (h ▸ hf1)⟩
        · exact ⟨Or.inr h, hh⟩
      · rintro ⟨h | h, hh⟩
        · exact Or.inl h
        · exact Or.inr ⟨h, hh⟩
    · rcases hf2 : hash2 f with _ | d2
      · simp only [classify_common, hf1, hf2, List.mem_cons]
        rw [ih]
        constructor
        · rintro (h | ⟨h, hh⟩)
          · exact ⟨Or.inl h, Or.inr (h ▸ hf2)⟩
          · exact ⟨Or.inr h, hh⟩
        · rintro ⟨h | h, hh⟩
          · exact Or.inl h
          · exact Or.inr ⟨h, hh⟩
      · have hred : p ∈ (classify_common hash1 hash2 (f :: rest)).failed_comparisons ↔
            p ∈ (classify_common hash1 hash2 rest).failed_comparisons := by
          by_cases hd : d1 = d2 <;> simp [classify_common, hf1, hf2, hd]
        rw [hred, ih]
        constructor
        · rintro ⟨h, hh⟩
          exact ⟨List.mem_cons_of_mem f h, hh⟩
        · rintro ⟨h, hh⟩
          rcases List.mem_cons.mp h with h | h
        
          · subst h
            rcases hh with hh | hh
            · rw [hf1] at hh; cases hh
            · rw [hf2] at hh; cases hh
          · exact ⟨h, hh⟩

theorem mem_classify_identical {hash1 hash2 : String → Option String} {l : List String} {p : String} :
    p ∈ (classify_common hash1 hash2 l).identical_files ↔
      p ∈ l ∧ ∃ d, hash1 p = some d ∧ hash2 p = some d := by
  induction l with
  | nil => simp [classify_common]
  | cons f rest ih =>
    rcases hf1 : hash1 f with _ | d1
    · have hred : p ∈ (classify_common hash1 hash2 (f :: rest)).identical_files ↔
          p ∈ (classify_common hash1 hash2 rest).identical_files := by
        simp [classify_common, hf1]
      rw [hred, ih]
      constructor
      · rintro ⟨h, hh⟩
        exact ⟨List.mem_cons_of_mem f h, hh⟩
      · rintro ⟨h, hh⟩
        rcases List.mem_cons.mp h with h | h
        · subst h
          rcases hh with ⟨d, hd1, _⟩
          rw [hf1] at hd1; cases hd1
        · exact ⟨h, hh⟩
    · rcases hf2 : hash2 f with _ | d2
      · have hred : p ∈ (classify_common hash1 hash2 (f :: rest)).identical_files ↔
            p ∈ (classify_common hash1 hash2 rest).identical_files := by
          simp [classify_common, hf1, hf2]
        rw [hred, ih]
        constructor
        · rintro ⟨h, hh⟩
          exact ⟨List.mem_cons_of_mem f h, hh⟩
        · rintro ⟨h, hh⟩
          rcases List.mem_cons.mp h with h | h
          · subst h
            rcases hh with ⟨d, _, hd2⟩
            rw [hf2] at hd2; cases hd2
          · exact ⟨h, hh⟩
      · by_cases hd : d1 = d2
        · have hred : p ∈ (classify_common hash1 hash2 (f :: rest)).identical_files ↔
              p = f ∨ p ∈ (classify_common hash1 hash2 rest).identical_files := by
            simp [classify_common, hf1, hf2, hd]
          rw [hred, ih, List.mem_cons]
          constructor
          · rintro (h | ⟨h, hh⟩)
            · exact ⟨Or.inl h, d2, h ▸ (hd ▸ hf1), h ▸ hf2⟩
            · exact ⟨Or.inr h, hh⟩
          · rintro ⟨h | h, hh⟩
            · exact Or.inl h
            · exact Or.inr ⟨h, hh⟩
        · have hred : p ∈ (classify_common hash1 hash2 (f :: rest)).identical_files ↔
              p ∈ (classify_common hash1 hash2 rest).identical_files := by
            simp [classify_common, hf1, hf2, hd]
          rw [hred, ih]
          constructor
          · rintro ⟨h, hh⟩
            exact ⟨List.mem_cons_of_mem f h, hh⟩
          · rintro ⟨h, hh⟩
            rcases List.mem_cons.mp h with h | h
            · subst h
              rcases hh with ⟨d, hd1, hd2⟩
              rw [hf1] at hd1
              rw [hf2] at hd2
              cases hd1; cases hd2
              exact absurd rfl hd
            · exact ⟨h, hh⟩

theorem mem_classify_different {hash1 hash2 : String → Option String} {l : List String} {p : String} :
    p ∈ (classify_common hash1 hash2 l).different_files ↔
      p ∈ l ∧ ∃ d1 d2, hash1 p = some d1 ∧ hash2 p = some d2 ∧ d1 ≠ d2 := by
  induction l with
  | nil => simp [classify_common]
  | cons f rest ih =>
    rcases hf1 : hash1 f with _ | d1
    · have hred : p ∈ (classify_common hash1 hash2 (f :: rest)).different_files ↔
          p ∈ (classify_common hash1 hash2 rest).different_files := by
        simp [classify_common, hf1]
      rw [hred, ih]
      constructor
      · rintro ⟨h, hh⟩
        exact ⟨List.mem_cons_of_mem f h, hh⟩
      · rintro ⟨h, hh⟩
        rcases List.mem_cons.mp h with h | h
        · subst h
          rcases hh with ⟨e1, e2, hd1, _, _⟩
          rw [hf1] at hd1; cases hd1
        · exact ⟨h, hh⟩
    · rcases hf2 : hash2 f with _ | d2
      · have hred : p ∈ (classify_common hash1 hash2 (f :: rest)).different_files ↔
            p ∈ (classify_common hash1 hash2 rest).different_files := by
          simp [classify_common, hf1, hf2]
        rw [hred, ih]
        constructor
        · rintro ⟨h, hh⟩
          exact ⟨List.mem_cons_of_mem f h, hh⟩
        · rintro ⟨h, hh⟩
          rcases List.mem_cons.mp h with h | h
          · subst h
            rcases hh with ⟨e1, e2, _, hd2, _⟩
            rw [hf2] at hd2; cases hd2
          · exact ⟨h, hh⟩
      · by_cases hd : d1 = d2
        · have hred : p ∈ (classify_common hash1 hash2 (f :: rest)).different_files ↔
              p ∈ (classify_common hash1 hash2 rest).different_files := by
            simp [classify_common, hf1, hf2, hd]
          rw [hred, ih]
          constructor
          · rintro ⟨h, hh⟩
            exact ⟨List.mem_cons_of_mem f h, hh⟩
          · rintro ⟨h, hh⟩
            rcases List.mem_cons.mp h with h | h
            · subst h
              rcases hh with ⟨e1, e2, hd1, hd2, hne⟩
              rw [hf1] at hd1
              rw [hf2] at hd2
              cases hd1; cases hd2
              exact absurd hd hne
            · exact ⟨h, hh⟩
        · have hred : p ∈ (classify_common hash1 hash2 (f :: rest)).different_files ↔
              p = f ∨ p ∈ (classify_common hash1 hash2 rest).different_files := by
            simp [classify_common, hf1, hf2, hd]
          rw [hred, ih, List.mem_cons]
          constructor
          · rintro (h | ⟨h, hh⟩)
            · exact ⟨Or.inl h, d1, d2, h ▸ hf1, h ▸ hf2, hd⟩
            · exact ⟨Or.inr h, hh⟩
          · rintro ⟨h | h, hh⟩
            · exact Or.inl h
            · exact Or.inr ⟨h, hh⟩

/-! ### Lemmas about the rename-detection loop -/

theorem detectLoop_changed_append (hash2 : String → Option String) :
    ∀ (bs : List String) (m : List (String × List String)) (changed : List (String × String))
      (un1 un2 : List String),
      ∃ s, (detectLoop hash2 bs m changed un1 un2).1 = changed ++ s := by
  intro bs
  induction bs with
  | nil => intro m changed un1 un2; exact ⟨[], by simp [detectLoop]⟩
  | cons b bs ih =>
    intro m changed un1 un2
    rcases hb : hash2 b with _ | d
    · simpa [detectLoop, hb] using ih m changed un1 un2
    · rcases hp : popCandidate m d with _ | ⟨a, m1⟩
      · simpa [detectLoop, hb, hp] using ih m changed un1 un2
      · rcases ih m1 (changed ++ [(a, b)]) (un1.erase a) (un2.erase b) with ⟨s, hs⟩
        refine ⟨(a, b) :: s, ?_⟩
        simp only [detectLoop, hb, hp]
        rw [hs]
        simp

theorem lookupCand_addCandidate (m : List (String × List String)) (d f e : String) :
    lookupCand (addCandidate m d f) e =
      if d = e then lookupCand m e ++ [f] else lookupCand m e := by
  induction m with
  | nil =>
    by_cases hde : d = e <;> simp [addCandidate, lookupCand, hde]
  | cons hd tl ih =>
    rcases hd with ⟨d1, cs⟩
    by_cases h1 : d1 = d
    · subst h1
      by_cases hde : d1 = e <;> simp [addCandidate, lookupCand, hde]
    · by_cases hde : d1 = e
      · subst hde
        have hne : ¬ d = d1 := fun h => h1 h.symm
        simp [addCandidate, lookupCand, h1, hne]
      · simp [addCandidate, lookupCand, h1, hde, ih]

theorem lookupCand_buildHashMapAux (hash1 : String → Option String) (d : String) :
    ∀ (l : List String) (m : List (String × List String)),
      lookupCand (buildHashMapAux hash1 l m) d =
        lookupCand m d ++ l.filter (fun x => hash1 x == some d) := by
  intro l
  induction l with
  | nil => intro m; simp [buildHashMapAux]
  | cons f rest ih =>
    intro m
    rcases hf : hash1 f with _ | e
    · have : (hash1 f == some d) = false := by simp [hf]
      simp [buildHashMapAux, hf, List.filter, this, ih]
    · by_cases hde : e = d
      · subst hde
        have : (hash1 f == some e) = true := by simp [hf]
        simp [buildHashMapAux, hf, List.filter, this, ih, lookupCand_addCandidate]
      · have h1 : (hash1 f == some d) = false := by simp [hf, hde]
        have h2 : (e == d) = false := by simp [hde]
        simp [buildHashMapAux, hf, List.filter, h1, h2, ih, lookupCand_addCandidate, hde]

theorem lookupCand_buildHashMap (hash1 : String → Option String) (d : String) (l : List String) :
    lookupCand (buildHashMap hash1 l) d = l.filter (fun x => hash1 x == some d) := by
  simp [buildHashMap, lookupCand_buildHashMapAux, lookupCand]

theorem popCandidate_of_lookupCand {m : List (String × List String)} {d a : String}
    {t : List String} (h : lookupCand m d = a :: t) :
    ∃ m1, popCandidate m d = some (a, m1) := by
  induction m with
  | nil => simp [lookupCand] at h
  | cons hd tl ih =>
    rcases hd with ⟨d1, cs⟩
    by_cases h1 : d1 = d
    · subst h1
      simp [lookupCand] at h
      subst h
      rcases t with _ | ⟨c2, cs1⟩
      · exact ⟨tl, by simp [popCandidate]⟩
      · exact ⟨(d1, c2 :: cs1) :: tl, by simp [popCandidate]⟩
    · simp [lookupCand, h1] at h
      rcases ih h with ⟨m1, hm1⟩
      exact ⟨(d1, cs) :: m1, by simp [popCandidate, h1, hm1]⟩

theorem detectLoop_nil_map (hash2 : String → Option String) :
    ∀ (bs : List String) (changed : List (String × String)) (un1 un2 : List String),
      detectLoop hash2 bs [] changed un1 un2 = (changed, un1, un2) := by
  intro bs
  induction bs with
  | nil => intro changed un1 un2; simp [detectLoop]
  | cons b bs ih =>
    intro changed un1 un2
    rcases hb : hash2 b with _ | d <;> simp [detectLoop, hb, popCandidate, ih]

theorem detectLoop_consuming (hash2 : String → Option String) :
    ∀ (bs : List String) (m : List (String × List String)) (changed : List (String × String))
      (un1 un2 : List String), un1.Nodup → un2.Nodup →
      (∀ a b, (a, b) ∈ changed → a ∉ un1 ∧ b ∉ un2) →
      ∀ a b, (a, b) ∈ (detectLoop hash2 bs m changed un1 un2).1 →
        a ∉ (detectLoop hash2 bs m changed un1 un2).2.1 ∧
        b ∉ (detectLoop hash2 bs m changed un1 un2).2.2 := by
  intro bs
  induction bs with
  | nil =>
    intro m changed un1 un2 h1 h2 hinv a b hab
    simp only [detectLoop] at hab ⊢
    exact hinv a b hab
  | cons b0 bs ih =>
    intro m changed un1 un2 h1 h2 hinv a b
    rcases hb : hash2 b0 with _ | d
    · simp only [detectLoop, hb]
      exact ih m changed un1 un2 h1 h2 hinv a b
    · rcases hp : popCandidate m d with _ | ⟨a0, m1⟩
      · simp only [detectLoop, hb, hp]
        exact ih m changed un1 un2 h1 h2 hinv a b
      · simp only [detectLoop, hb, hp]
        refine ih m1 (changed ++ [(a0, b0)]) (un1.erase a0) (un2.erase b0)
          (h1.erase a0) (h2.erase b0) ?_ a b
        intro x y hxy
        rcases List.mem_append.mp hxy with hxy | hxy
        · rcases hinv x y hxy with ⟨hx, hy⟩
          exact ⟨fun hm => hx (List.mem_of_mem_erase hm),
                 fun hm => hy (List.mem_of_mem_erase hm)⟩
        · simp only [List.mem_singleton, Prod.mk.injEq] at hxy
          rcases hxy with ⟨hx, hy⟩
          subst hx; subst hy
          constructor
          · intro hm
            exact absurd rfl ((h1.mem_erase_iff.mp hm).1)
          · intro hm
            exact absurd rfl ((h2.mem_erase_iff.mp hm).1)

theorem addCandidate_inv {hash1 : String → Option String} {f d : String} :
    ∀ (m : List (String × List String)),
      (∀ d1 cs x, (d1, cs) ∈ m → x ∈ cs → hash1 x = some d1) →
      hash1 f = some d →
      ∀ d1 cs x, (d1, cs) ∈ addCandidate m d f → x ∈ cs → hash1 x = some d1 := by
  intro m
  induction m with
  | nil =>
    intro _ hf d1 cs x hm hx
    simp only [addCandidate, List.mem_singleton, Prod.mk.injEq] at hm
    rcases hm with ⟨hd1, hcs⟩
    subst hd1; subst hcs
    simp only [List.mem_singleton] at hx
    subst hx
    exact hf
  | cons hd tl ih =>
    intro hinv hf d1 cs x hm hx
    rcases hd with ⟨d2, cs2⟩
    by_cases h2 : d2 = d
    · subst h2
      simp only [addCandidate, eq_self_iff_true, if_true, List.mem_cons, Prod.mk.injEq] at hm
      rcases hm with ⟨hd1, hcs⟩ | hm
      · subst hd1; subst hcs
        rcases List.mem_append.mp hx with hx | hx
        · exact hinv d1 cs2 x (List.mem_cons_self _ _) hx
        · simp only [List.mem_singleton] at hx
          subst hx
          exact hf
      · exact hinv d1 cs x (List.mem_cons_of_mem _ hm) hx
    · simp only [addCandidate, h2, if_false, List.mem_cons, Prod.mk.injEq] at hm
      rcases hm with ⟨hd1, hcs⟩ | hm
      · subst hd1; subst hcs
        exact hinv d1 cs x (List.mem_cons_self _ _) hx
      · exact ih (fun d3 cs3 y h3 hy => hinv d3 cs3 y (List.mem_cons_of_mem _ h3) hy) hf d1 cs x hm hx

theorem popCandidate_inv {hash1 : String → Option String} {d : String} :
    ∀ (m : List (String × List String)) (a : String) (m1 : List (String × List String)),
      (∀ d1 cs x, (d1, cs) ∈ m → x ∈ cs → hash1 x = some d1) →
      popCandidate m d = some (a, m1) →
      hash1 a = some d ∧ ∀ d1 cs x, (d1, cs) ∈ m1 → x ∈ cs → hash1 x = some d1 := by
  intro m
  induction m with
  | nil => intro a m1 _ hp; simp [popCandidate] at hp
  | cons hd tl ih =>
    intro a m1 hinv hp
    rcases hd with ⟨d2, cs2⟩
    by_cases h2 : d2 = d
    · subst h2
      rcases cs2 with _ | ⟨c1, cs3⟩
      · simp [popCandidate] at hp
      · rcases cs3 with _ | ⟨c2, cs4⟩
        · simp only [popCandidate, eq_self_iff_true, if_true, Option.some.injEq, Prod.mk.injEq] at hp
          rcases hp with ⟨ha, hm1⟩
          subst ha; subst hm1
          refine ⟨hinv d2 [c1] c1 (List.mem_cons_self _ _) (List.mem_singleton.mpr rfl), ?_⟩
          exact fun d1 cs x hm hx => hinv d1 cs x (List.mem_cons_of_mem _ hm) hx
        · simp only [popCandidate, eq_self_iff_true, if_true, Option.some.injEq, Prod.mk.injEq] at hp
          rcases hp with ⟨ha, hm1⟩
          subst ha; subst hm1
          refine ⟨hinv d2 (c1 :: c2 :: cs4) c1 (List.mem_cons_self _ _) (List.mem_cons_self _ _), ?_⟩
          intro d1 cs x hm hx
          rcases List.mem_cons.mp hm with hm | hm
          · injection hm with hd1 hcs
            subst hd1; subst hcs
            exact hinv d1 (c1 :: c2 :: cs4) x (List.mem_cons_self _ _) (List.mem_cons_of_mem _ hx)
          · exact hinv d1 cs x (List.mem_cons_of_mem _ hm) hx
    · rcases hq : popCandidate tl d with _ | ⟨a1, rest1⟩
      · simp [popCandidate, h2, hq] at hp
      · simp only [popCandidate, h2, if_false, hq, Option.some.injEq, Prod.mk.injEq] at hp
        rcases hp with ⟨ha, hm1⟩
        subst ha; subst hm1
        have htl := ih a1 rest1
          (fun d1 cs x hm hx => hinv d1 cs x (List.mem_cons_of_mem _ hm) hx) hq
        refine ⟨htl.1, ?_⟩
        intro d1 cs x hm hx
        rcases List.mem_cons.mp hm with hm | hm
        · injection hm with hd1 hcs
          subst hd1; subst hcs
          exact hinv d1 cs x (List.mem_cons_self _ _) hx
        · exact htl.2 d1 cs x hm hx

theorem buildHashMapAux_inv {hash1 : String → Option String} :
    ∀ (l : List String) (m : List (String × List String)),
      (∀ d1 cs x, (d1, cs) ∈ m → x ∈ cs → hash1 x = some d1) →
      ∀ d1 cs x, (d1, cs) ∈ buildHashMapAux hash1 l m → x ∈ cs → hash1 x = some d1 := by
  intro l
  induction l with
  | nil => intro m hinv; simpa [buildHashMapAux] using hinv
  | cons f rest ih =>
    intro m hinv
    rcases hf : hash1 f with _ | d
    · simp only [buildHashMapAux, hf]
      exact ih m hinv
    · simp only [buildHashMapAux, hf]
      exact ih (addCandidate m d f) (addCandidate_inv m hinv hf)

theorem buildHashMap_inv {hash1 : String → Option String} (l : List String) :
    ∀ d1 cs x, (d1, cs) ∈ buildHashMap hash1 l → x ∈ cs → hash1 x = some d1 :=
  buildHashMapAux_inv l [] (by simp)

theorem detectLoop_unreadable {hash1 hash2 : String → Option String} {f : String}
    (hf : hash1 f = none) :
    ∀ (bs : List String) (m : List (String × List String)) (changed : List (String × String))
      (un1 un2 : List String),
      (∀ d1 cs x, (d1, cs) ∈ m → x ∈ cs → hash1 x = some d1) →
      f ∈ un1 → (∀ b, (f, b) ∉ changed) →
      (∀ b, (f, b) ∉ (detectLoop hash2 bs m changed un1 un2).1) ∧
        f ∈ (detectLoop hash2 bs m changed un1 un2).2.1 := by
  intro bs
  induction bs with
  | nil =>
    intro m changed un1 un2 hm hun hch
    simp only [detectLoop]
    exact ⟨hch, hun⟩
  | cons b0 bs ih =>
    intro m changed un1 un2 hm hun hch
    rcases hb : hash2 b0 with _ | d
    · simp only [detectLoop, hb]
      exact ih m changed un1 un2 hm hun hch
    · rcases hp : popCandidate m d with _ | ⟨a0, m1⟩
      · simp only [detectLoop, hb, hp]
        exact ih m changed un1 un2 hm hun hch
      · simp only [detectLoop, hb, hp]
        rcases popCandidate_inv m a0 m1 hm hp with ⟨ha0, hm1⟩
        have hfa0 : f ≠ a0 := by
          intro h
          rw [h, ha0] at hf
          cases hf
        refine ih m1 (changed ++ [(a0, b0)]) (un1.erase a0) (un2.erase b0) hm1 ?_ ?_
        · exact (List.mem_erase_of_ne hfa0).mpr hun
        · intro b hb1
          rcases List.mem_append.mp hb1 with hb1 | hb1
          · exact hch b hb1
          · simp only [List.mem_singleton, Prod.mk.injEq] at hb1
            exact hfa0 hb1.1

/-! ### Filesystem lemmas: content changes never affect enumeration -/

theorem walkFilesList_mapContents (g : String → String) :
    ∀ es : List (String × FSTree), walkFilesList (mapContentsList g es) = walkFilesList es
  | [] => rfl
  | (n, .file c r) :: rest => by
    show walkFilesList ((n, .file (g c) r) :: mapContentsList g rest)
        = walkFilesList ((n, .file c r) :: rest)
    simp only [walkFilesList]
    rw [walkFilesList_mapContents g rest]
  | (n, .dir es2) :: rest => by
    show walkFilesList ((n, .dir (mapContentsList g es2)) :: mapContentsList g rest)
        = walkFilesList ((n, .dir es2) :: rest)
    simp only [walkFilesList, walkFiles]
    rw [walkFilesList_mapContents g es2, walkFilesList_mapContents g rest]

theorem walkFiles_mapContents (g : String → String) (t : FSTree) :
    walkFiles (mapContents g t) = walkFiles t := by
  cases t with
  | file c r => rfl
  | dir es =>
    show walkFiles (.dir (mapContentsList g es)) = walkFiles (.dir es)
    simp only [walkFiles]
    exact walkFilesList_mapContents g es

theorem walkFoldersList_mapContents (g : String → String) :
    ∀ es : List (String × FSTree), walkFoldersList (mapContentsList g es) = walkFoldersList es
  | [] => rfl
  | (n, .file c r) :: rest => by
    show walkFoldersList ((n, .file (g c) r) :: mapContentsList g rest)
        = walkFoldersList ((n, .file c r) :: rest)
    simp only [walkFoldersList]
    rw [walkFoldersList_mapContents g rest]
  | (n, .dir es2) :: rest => by
    show walkFoldersList ((n, .dir (mapContentsList g es2)) :: mapContentsList g rest)
        = walkFoldersList ((n, .dir es2) :: rest)
    simp only [walkFoldersList, walkFolders]
    rw [walkFoldersList_mapContents g es2, walkFoldersList_mapContents g rest]

theorem walkFolders_mapContents (g : String → String) (t : FSTree) :
    walkFolders (mapContents g t) = walkFolders t := by
  cases t with
  | file c r => rfl
  | dir es =>
    show walkFolders (.dir (mapContentsList g es)) = walkFolders (.dir es)
    simp only [walkFolders]
    exact walkFoldersList_mapContents g es

theorem findEntry_mapContents (g : String → String) (c : String) :
    ∀ es : List (String × FSTree),
      findEntry c (mapContentsList g es) = (findEntry c es).map (mapContents g) := by
  intro es
  induction es with
  | nil => rfl
  | cons e rest ih =>
    rcases e with ⟨n, t⟩
    by_cases hn : n = c
    · show findEntry c ((n, mapContents g t) :: mapContentsList g rest) = _
      simp [findEntry, hn]
    · show findEntry c ((n, mapContents g t) :: mapContentsList g rest) = _
      simp [findEntry, hn, ih]

theorem lookupTree_mapContents (g : String → String) :
    ∀ (comps : List String) (t : FSTree),
      lookupTree (mapContents g t) comps = (lookupTree t comps).map (mapContents g) := by
  intro comps
  induction comps with
  | nil => intro t; simp [lookupTree]
  | cons c cs ih =>
    intro t
    cases t with
    | file co r => rfl
    | dir es =>
      show lookupTree (.dir (mapContentsList g es)) (c :: cs) = _
      simp only [lookupTree, findEntry_mapContents]
      rcases hfind : findEntry c es with _ | t2
      · rfl
      · simp only [Option.map_some]
        exact ih t2

theorem get_all_files_and_folders_mapContents (g : String → String) (fs : FSTree) (folder : String) :
    get_all_files_and_folders (mapContents g fs) folder = get_all_files_and_folders fs folder := by
  unfold get_all_files_and_folders
  rw [lookupTree_mapContents]
  rcases h : lookupTree fs (splitPath folder) with _ | t
  · rfl
  · simp [walkFiles_mapContents, walkFolders_mapContents]

/-! ### Chunked-hashing lemmas -/

theorem foldl_hashlib_update :
    ∀ (cs : List (List Nat)) (acc : List Nat), cs.foldl hashlib_update acc = acc ++ cs.flatten := by
  intro cs
  induction cs with
  | nil => intro acc; simp
  | cons c rest ih =>
    intro acc
    simp only [List.foldl_cons, List.flatten_cons, hashlib_update, ih, List.append_assoc]

theorem readChunks_join : ∀ l : List Nat, (readChunks l).flatten = l
  | [] => by simp [readChunks]
  | x :: xs => by
    rw [readChunks]
    rw [List.flatten_cons]
    rw [readChunks_join ((x :: xs).drop 4096)]
    exact List.take_append_drop 4096 (x :: xs)
termination_by l => l.length
decreasing_by simp [List.length_drop]; omega

/-! ### Claim theorems -/

/-- C1 (counterexample).  The claim says the candidate multi-map is
built in the sorted order of `onlyFilesA` and B-side files are matched
against it so that the rename list is deterministic.  In the code the
map is built while iterating `set(extra_files1)`, whose enumeration
order is incidental: the two runs below differ only in the enumeration
order of the same A-side set `{x1, x2}` (the second conjunct), yet they
emit different rename lists, so the output is not determined by the
sets and, for the order `[x2, x1]`, not built in sorted order. -/
theorem C1_counterexample :
    detect_changed_files (fun _ => some "D") (fun _ => some "D") ["x2", "x1"] ["y1"] ≠
      detect_changed_files (fun _ => some "D") (fun _ => some "D") ["x1", "x2"] ["y1"] ∧
    (["x2", "x1"] : List String).Perm ["x1", "x2"] :=
  ⟨by decide, List.Perm.swap "x1" "x2" []⟩

/-- C1 (amended).  The multi-map is built over `onlyFilesA` in the
incidental enumeration order of `set(extra_files1)` and the B-side
files are processed in the enumeration order of `set(extra_files2)`;
each B-side file whose digest has a remaining candidate is paired with
the first candidate in that enumeration order (so the output is
determined only once those orders are fixed; when the enumeration order
happens to be sorted, the behaviour claimed by the spec results): if
the first B-side file `b` has digest `d` and `a` heads the A-side files
of digest `d` in enumeration order, the pair `(a, b)` is emitted. -/
theorem C1_first_candidate (hash1 hash2 : String → Option String) (iter1 : List String)
    (b : String) (bs : List String) (d a : String) (t : List String)
    (hb : hash2 b = some d)
    (hfil : iter1.filter (fun x => hash1 x == some d) = a :: t) :
    (a, b) ∈ (detect_changed_files hash1 hash2 iter1 (b :: bs)).1 := by
  have hlook : lookupCand (buildHashMap hash1 iter1) d = a :: t := by
    rw [lookupCand_buildHashMap, hfil]
  rcases popCandidate_of_lookupCand hlook with ⟨m1, hm1⟩
  unfold detect_changed_files
  simp only [detectLoop, hb, hm1, List.nil_append]
  rcases detectLoop_changed_append hash2 bs m1 [(a, b)] (iter1.erase a) ((b :: bs).erase b)
    with ⟨s, hs⟩
  rw [hs]
  simp

/-- C1 (witness). -/
theorem C1_witness :
    ("x2", "y1") ∈
      (detect_changed_files (fun _ => some "D") (fun _ => some "D") ["x2", "x1"] ["y1"]).1 :=
  C1_first_candidate (fun _ => some "D") (fun _ => some "D") ["x2", "x1"] "y1" [] "D" "x2" ["x1"]
    rfl (by decide)

/-- C2.  For every path in the common set, the comparison loop
classifies it as failed (the spec's `Unreadable`) exactly when hashing
fails on either side, as identical exactly when both digests agree, and
as different exactly when both hashes succeed with distinct digests;
the loop is a total function, so a per-file hash failure never aborts
the run. -/
theorem C2_classification (hash1 hash2 : String → Option String) (common : List String)
    (p : String) (hp : p ∈ common) :
    (p ∈ (classify_common hash1 hash2 common).failed_comparisons ↔
      hash1 p = none ∨ hash2 p = none) ∧
    (p ∈ (classify_common hash1 hash2 common).identical_files ↔
      ∃ d, hash1 p = some d ∧ hash2 p = some d) ∧
    (p ∈ (classify_common hash1 hash2 common).different_files ↔
      ∃ d1 d2, hash1 p = some d1 ∧ hash2 p = some d2 ∧ d1 ≠ d2) := by
  refine ⟨?_, ?_, ?_⟩
  · rw [mem_classify_failed]; simp [hp]
  · rw [mem_classify_identical]; simp [hp]
  · rw [mem_classify_different]; simp [hp]

/-- C2 (witness). -/
theorem C2_witness :
    "a" ∈ (classify_common (fun _ => some "D") (fun _ => some "D") ["a"]).identical_files := by
  have h := (C2_classification (fun _ => some "D") (fun _ => some "D") ["a"] "a" (by decide)).2.1
  exact h.mpr ⟨"D", rfl, rfl⟩

/-- C3.  Rename detection is consuming: every A-side path matched into
a rename pair is absent from the returned `unmatched_extra_files1` and
every matched B-side path is absent from `unmatched_extra_files2`
(for duplicate-free one-sided sets, as produced by Python's `set`);
in particular two lone files with equal digests yield exactly the pair
`(a, b)` and both remaining sets empty. -/
theorem C3_rename_consuming (hash1 hash2 : String → Option String) :
    (∀ iter1 iter2 : List String, iter1.Nodup → iter2.Nodup →
      ∀ a b, (a, b) ∈ (detect_changed_files hash1 hash2 iter1 iter2).1 →
        a ∉ (detect_changed_files hash1 hash2 iter1 iter2).2.1 ∧
        b ∉ (detect_changed_files hash1 hash2 iter1 iter2).2.2) ∧
    (∀ a b d, hash1 a = some d → hash2 b = some d →
      detect_changed_files hash1 hash2 [a] [b] = ([(a, b)], [], [])) := by
  constructor
  · intro iter1 iter2 h1 h2 a b hab
    exact detectLoop_consuming hash2 iter2 (buildHashMap hash1 iter1) [] iter1 iter2 h1 h2
      (by simp) a b hab
  · intro a b d ha hb
    simp [detect_changed_files, buildHashMap, buildHashMapAux, addCandidate, detectLoop,
      popCandidate, ha, hb, List.erase_cons_head]

/-- C3 (witness). -/
theorem C3_witness :
    detect_changed_files (fun _ => some "D") (fun _ => some "D") ["foo.txt"] ["bar.txt"]
      = ([("foo.txt", "bar.txt")], [], []) :=
  (C3_rename_consuming (fun _ => some "D") (fun _ => some "D")).2 "foo.txt" "bar.txt" "D" rfl rfl

/-- C4 (counterexample).  The claim says a missing root makes `compare`
fail with a `PathError` and produce no report.  In the code `os.walk`
silently ignores the error, so the missing root `a` enumerates as the
empty set and `compare_folders` runs to completion, producing a full
report that lists `b`'s file as one-sided — no error path exists. -/
theorem C4_counterexample :
    lookupTree fsC4 (splitPath "a") = none ∧
    compare_folders (fun s => s) fsC4 "a" "b" (fun l => l)
      = ⟨[], [], ["x.txt"], [], [], [], 0⟩ :=
  ⟨rfl, by decide⟩

/-- C4 (amended).  For every root that does not exist or cannot be
listed, enumeration silently yields the empty file set and the
comparison proceeds to produce a complete report: no entries derived
from common files, no rename pairs, and the other side's files all
classified as only-in-the-other-folder.  No `PathError` is raised and
the run is not aborted. -/
theorem C4_missing_root (sha : String → String) (fs : FSTree) (folder1 folder2 : String)
    (setOrder : List String → List String) (hso : ∀ l, (setOrder l).Perm l)
    (hmiss : lookupTree fs (splitPath folder1) = none) :
    get_all_files fs folder1 = [] ∧
    (compare_folders sha fs folder1 folder2 setOrder).total_checked = 0 ∧
    (compare_folders sha fs folder1 folder2 setOrder).identical_files = [] ∧
    (compare_folders sha fs folder1 folder2 setOrder).different_files = [] ∧
    (compare_folders sha fs folder1 folder2 setOrder).failed_comparisons = [] ∧
    (compare_folders sha fs folder1 folder2 setOrder).changed_files = [] ∧
    ∀ p, p ∈ (compare_folders sha fs folder1 folder2 setOrder).only_in_folder2 ↔
      p ∈ get_all_files fs folder2 := by
  have hf1 : get_all_files fs folder1 = [] := by
    unfold get_all_files
    rw [hmiss]
  have honly1 : sortedDiff (get_all_files fs folder1) (get_all_files fs folder2) = [] := by
    rw [hf1]; rfl
  have hcommon : sortedInter (get_all_files fs folder1) (get_all_files fs folder2) = [] := by
    rw [hf1]; rfl
  have hso1 : setOrder (sortedDiff (get_all_files fs folder1) (get_all_files fs folder2)) = [] := by
    rw [honly1]
    exact List.Perm.eq_nil (hso [])
  have hcls : classify_common (fun p => get_file_hash sha fs (pathJoin folder1 p))
      (fun p => get_file_hash sha fs (pathJoin folder2 p))
      (sortedInter (get_all_files fs folder1) (get_all_files fs folder2))
      = ⟨[], [], [], 0⟩ := by
    rw [hcommon]; rfl
  have hdet : detect_changed_files (fun p => get_file_hash sha fs (pathJoin folder1 p))
      (fun p => get_file_hash sha fs (pathJoin folder2 p))
      (setOrder (sortedDiff (get_all_files fs folder1) (get_all_files fs folder2)))
      (setOrder (sortedDiff (get_all_files fs folder2) (get_all_files fs folder1)))
      = ([], [],
         setOrder (sortedDiff (get_all_files fs folder2) (get_all_files fs folder1))) := by
    rw [hso1]
    unfold detect_changed_files buildHashMap
    simp only [buildHashMapAux]
    exact detectLoop_nil_map _ _ _ _ _
  have key : compare_folders sha fs folder1 folder2 setOrder =
      ⟨[], [], setOrder (sortedDiff (get_all_files fs folder2) (get_all_files fs folder1)),
        [], [], [], 0⟩ := by
    simp only [compare_folders]
    rw [hcls, hdet]
  refine ⟨hf1, ?_, ?_, ?_, ?_, ?_, ?_⟩
  · rw [key]
  · rw [key]
  · rw [key]
  · rw [key]
  · rw [key]
  · intro p
    rw [key]
    refine ((hso _).mem_iff).trans ?_
    rw [hf1]
    simp [mem_sortedDiff]

/-- C4 (witness). -/
theorem C4_witness :
    get_all_files fsC4 "a" = [] ∧
    (compare_folders (fun s => s) fsC4 "a" "b" (fun l => l)).total_checked = 0 :=
  ⟨(C4_missing_root (fun s => s) fsC4 "a" "b" (fun l => l) (fun l => List.Perm.refl l) rfl).1,
   (C4_missing_root (fun s => s) fsC4 "a" "b" (fun l => l) (fun l => List.Perm.refl l) rfl).2.1⟩

/-- C5 (counterexample).  The claim says a one-sided file whose hashing
fails is reclassified as `Unreadable` and counted in the unreadable
summary count.  In the code the A-side loop of `detect_changed_files`
merely skips such a file: root `a`'s unreadable file `x` stays in the
one-sided list (`only_in_folder1 = ["x"]`) and the report's
`failed_comparisons` — the only unreadable count, fed solely by the
common-file loop — stays empty. -/
theorem C5_counterexample :
    get_file_hash (fun s => s) fsC5 "a/x" = none ∧
    compare_folders (fun s => s) fsC5 "a" "b" (fun l => l)
      = ⟨[], ["x"], [], [], [], [], 0⟩ :=
  ⟨rfl, by decide⟩

/-- C5 (amended).  A one-sided A-side file whose hashing fails is
excluded from rename matching — it never appears as the A component of
an emitted rename pair — but it is not reclassified: it remains in the
returned one-sided set and is not added to any unreadable count. -/
theorem C5_unreadable_excluded (hash1 hash2 : String → Option String) (iter1 iter2 : List String)
    (f : String) (hf : hash1 f = none) (hmem : f ∈ iter1) :
    (∀ b, (f, b) ∉ (detect_changed_files hash1 hash2 iter1 iter2).1) ∧
    f ∈ (detect_changed_files hash1 hash2 iter1 iter2).2.1 := by
  unfold detect_changed_files
  exact detectLoop_unreadable hf iter2 (buildHashMap hash1 iter1) [] iter1 iter2
    (buildHashMap_inv iter1) hmem (by simp)

/-- C5 (witness). -/
theorem C5_witness :
    (∀ b, ("x", b) ∉ (detect_changed_files (fun _ => none) (fun _ => none) ["x"] []).1) ∧
    "x" ∈ (detect_changed_files (fun _ => none) (fun _ => none) ["x"] []).2.1 :=
  C5_unreadable_excluded (fun _ => none) (fun _ => none) ["x"] [] "x" rfl (by decide)

/-- C6.  The reconciler's buckets `onlyFilesA = filesA − filesB`,
`onlyFilesB = filesB − filesA` and `common = filesA ∩ filesB` are
disjoint where required and partition `filesA ∪ filesB`: membership in
each bucket is exactly determined by membership in the two input
sets. -/
theorem C6_partition (filesA filesB : List String) (p : String) :
    (p ∈ sortedDiff filesA filesB ↔ p ∈ filesA ∧ p ∉ filesB) ∧
    (p ∈ sortedDiff filesB filesA ↔ p ∈ filesB ∧ p ∉ filesA) ∧
    (p ∈ sortedInter filesA filesB ↔ p ∈ filesA ∧ p ∈ filesB) ∧
    ¬(p ∈ sortedDiff filesA filesB ∧ p ∈ sortedDiff filesB filesA) ∧
    ((p ∈ sortedDiff filesA filesB ∨ p ∈ sortedDiff filesB filesA ∨
        p ∈ sortedInter filesA filesB) ↔ p ∈ filesA ∨ p ∈ filesB) := by
  refine ⟨mem_sortedDiff, mem_sortedDiff, mem_sortedInter, ?_, ?_⟩
  · rintro ⟨h1, h2⟩
    exact (mem_sortedDiff.mp h2).2 (mem_sortedDiff.mp h1).1
  · rw [mem_sortedDiff, mem_sortedDiff, mem_sortedInter]
    by_cases hA : p ∈ filesA <;> by_cases hB : p ∈ filesB <;> simp [hA, hB]

/-- C7 (counterexample).  The claim says that with two A-side files of
digest D and one B-side file of digest D, the lowest-sorted A candidate
is matched.  With the A-side set enumerated in the order `[x2, x1]`
(possible for `set` iteration, second conjunct computes the sorted
order `[x1, x2]`), the code matches `x2`, not the lowest-sorted `x1`. -/
theorem C7_counterexample :
    detect_changed_files (fun _ => some "D") (fun _ => some "D") ["x2", "x1"] ["y1"]
      = ([("x2", "y1")], ["x1"], []) ∧
    sortStr ["x2", "x1"] = ["x1", "x2"] :=
  ⟨by decide, by decide⟩

/-- C7 (amended).  With two A-side files of digest D (in enumeration
order `a1` then `a2`) and one B-side file `b` of digest D, rename
detection produces exactly one pair, matching the first-enumerated A
candidate `a1` (the lowest-sorted one only when the enumeration order
is sorted) to `b`, and the other A file remains in the returned
one-sided set. -/
theorem C7_duplicate_digest (hash1 hash2 : String → Option String) (a1 a2 b d : String)
    (h1 : hash1 a1 = some d) (h2 : hash1 a2 = some d) (hb : hash2 b = some d)
    (hne : a1 ≠ a2) :
    detect_changed_files hash1 hash2 [a1, a2] [b] = ([(a1, b)], [a2], []) := by
  simp [detect_changed_files, buildHashMap, buildHashMapAux, addCandidate, detectLoop,
    popCandidate, h1, h2, hb, List.erase_cons_head]

/-- C7 (witness). -/
theorem C7_witness :
    detect_changed_files (fun _ => some "D") (fun _ => some "D") ["x1", "x2"] ["y1"]
      = ([("x1", "y1")], ["x2"], []) :=
  C7_duplicate_digest (fun _ => some "D") (fun _ => some "D") "x1" "x2" "y1" "D" rfl rfl rfl
    (by decide)

/-- C8.  The chunked hasher — reading successive 4096-byte chunks into
the running `hashlib` accumulator — produces exactly the digest of the
file's full byte stream computed in one pass; determinism and
idempotence are immediate, the digest being a pure function of the
content. -/
theorem C8_chunked_equals_full (sha : List Nat → String) (content : List Nat) :
    hash_file_chunked sha content = hash_full_stream sha content := by
  unfold hash_file_chunked hash_full_stream
  rw [foldl_hashlib_update, List.nil_append, readChunks_join]

/-- C9.  The only-folder buckets are plain set difference on relative
paths: a path is in `only_folders_in_folder1` exactly when it is an
enumerated folder of the first root and not of the second (and
symmetrically), and the buckets are unchanged by rewriting every file
content — folders are never hashed or content-compared. -/
theorem C9_folder_buckets (fs : FSTree) (folder1 folder2 : String) (g : String → String)
    (p : String) :
    (p ∈ (beta_only_folders fs folder1 folder2).1 ↔
      p ∈ (get_all_files_and_folders fs folder1).2 ∧
        p ∉ (get_all_files_and_folders fs folder2).2) ∧
    (p ∈ (beta_only_folders fs folder1 folder2).2 ↔
      p ∈ (get_all_files_and_folders fs folder2).2 ∧
        p ∉ (get_all_files_and_folders fs folder1).2) ∧
    beta_only_folders (mapContents g fs) folder1 folder2
      = beta_only_folders fs folder1 folder2 := by
  refine ⟨mem_sortedDiff, mem_sortedDiff, ?_⟩
  unfold beta_only_folders
  simp only [get_all_files_and_folders_mapContents]

/-- C10.  The common-file loop classifies each common path into exactly
one of the identical, different or failed lists — their concatenation
is a permutation of the common list, so nothing is dropped or
double-counted — and `total_checked` equals the number of common paths,
which equals the sum of the three bucket sizes. -/
theorem C10_summary_consistency (hash1 hash2 : String → Option String) (common : List String) :
    ((classify_common hash1 hash2 common).identical_files ++
      (classify_common hash1 hash2 common).different_files ++
      (classify_common hash1 hash2 common).failed_comparisons).Perm common ∧
    (classify_common hash1 hash2 common).total_checked = common.length ∧
    (classify_common hash1 hash2 common).identical_files.length +
      (classify_common hash1 hash2 common).different_files.length +
      (classify_common hash1 hash2 common).failed_comparisons.length = common.length := by
  refine ⟨classify_common_perm hash1 hash2 common, classify_common_total hash1 hash2 common, ?_⟩
  have h := (classify_common_perm hash1 hash2 common).length_eq
  simpa [List.length_append, Nat.add_assoc] using h
